import Mathlib

/-!
Verification of the SuperElite processing-ledger core
(`src/backend/manifest_manager.py`) against its natural-language
specification.

The Python module is shallowly embedded below.  The in-memory JSON document
`ManifestManager.data` becomes the structure `ManifestData`; Python's
`dict.get(key, default)` is modelled with `Option` fields read through
`Option.getD`; the `files` field, which may be a legacy list or a mapping,
becomes the sum type `FilesField`.  A Python dict keyed by filename is
modelled as an association list with in-place-replacing insertion
(`insertOrReplace`), which matches dict insertion-order semantics.
Scores are modelled as rationals.  Effects are made explicit: the current
time (`datetime.now().isoformat()`) is passed as a `now : String` argument,
file-content hashing (`calculate_file_hash`) is abstracted as a function
from paths to digest strings, and raw file bytes are `List Nat`.
-/

namespace SuperElite

/-- Embeds `MANIFEST_VERSION = "1.0"`. -/
def MANIFEST_VERSION : String := "1.0"

/-- One entry of `data["files"]` in the mapping schema, as written by
`add_file_result` (all fields present) or by `_migrate_old_format`
(no `original_path` key, modelled as `none`). -/
structure FileRecord where
  hash : String
  original_path : Option String
  quality : ℚ
  aesthetic : ℚ
  total : ℚ
  rating : Int
  processed_at : String
  deriving DecidableEq

/-- The `data["config"]` sub-document. -/
structure Config where
  thresholds : List ℚ
  quality_weight : ℚ
  aesthetic_weight : ℚ
  deriving DecidableEq

/-- The `scores` sub-dict of a legacy (list-shaped) file entry; every key
is read with `scores.get(key, 0)`. -/
structure LegacyScores where
  quality : Option ℚ
  aesthetic : Option ℚ
  total : Option ℚ
  deriving DecidableEq

/-- One element of a legacy list-shaped `files` field, read with
`file_info.get("filename", "")`, `file_info.get("scores", {})` and
`file_info.get("rating", 0)`. -/
structure LegacyEntry where
  filename : Option String
  scores : Option LegacyScores
  rating : Option Int
  deriving DecidableEq

/-- The legacy `settings` sub-document consulted by `_migrate_old_format`
when backfilling `config`. -/
structure Settings where
  thresholds : Option (List ℚ)
  quality_weight : Option ℚ
  aesthetic_weight : Option ℚ
  deriving DecidableEq

/-- The legacy `statistics` sub-document consulted by `_migrate_old_format`
when backfilling `total_files`. -/
structure Statistics where
  total : Option Nat
  deriving DecidableEq

/-- The `files` field of the document: either the legacy list shape or the
current mapping shape. -/
inductive FilesField where
  | legacy (entries : List LegacyEntry)
  | mapping (entries : List (String × FileRecord))
  deriving DecidableEq

/-- The in-memory document `ManifestManager.data`.  Fields the code reads
through `data.get(key, default)` are `Option`s; `created`, `settings` and
`statistics` are the extra keys a legacy document may carry. -/
structure ManifestData where
  version : Option String
  created_at : Option String
  updated_at : Option String
  config : Option Config
  status : Option String
  total_files : Option Nat
  processed_files : Option Nat
  files : FilesField
  created : Option String
  settings : Option Settings
  statistics : Option Statistics
  deriving DecidableEq

/-- Python dict lookup `files[filename]` / `filename in files` on the
mapping shape.  On the legacy list shape, `filename in list_of_dicts` is
always `False` in Python, which the callers below reproduce by treating the
mapping as empty. -/
def filesOf (d : ManifestData) : List (String × FileRecord) :=
  match d.files with
  | .mapping m => m
  | .legacy _ => []

/-- Association-list lookup, modelling `filename in files` plus
`files[filename]`. -/
def lookupFile : List (String × FileRecord) → String → Option FileRecord
  | [], _ => none
  | (k, v) :: rest, fn => if k = fn then some v else lookupFile rest fn

/-- Python dict assignment `files[filename] = record`: replaces the value
in place when the key exists, appends otherwise. -/
def insertOrReplace : List (String × FileRecord) → String → FileRecord →
    List (String × FileRecord)
  | [], k, v => [(k, v)]
  | (k', v') :: rest, k, v =>
    if k' = k then (k, v) :: rest else (k', v') :: insertOrReplace rest k v

/-- The `status` property: `self.data.get("status", "new")`. -/
def statusOf (d : ManifestData) : String := d.status.getD "new"

/-- Models Python `round(x, 2)` on the exact values the ledger stores
(two-decimal rounding; exact on inputs that already have at most two
decimal places, which is what the theorems below exercise). -/
def round2 (x : ℚ) : ℚ := (round (100 * x) : ℚ) / 100

/-- The byte stream `calculate_file_hash` feeds to the MD5 hasher for a
readable file with the given content: `f.read(65536)` yields the first
64 KiB, then `f.seek(-min(65536, size), 2)` followed by `f.read(65536)`
yields the bytes from position `size - min(65536, size)` on. -/
def hashInput (content : List Nat) : List Nat :=
  content.take 65536 ++
    ((content.drop (content.length - min 65536 content.length)).take 65536)

/-- Embeds `ManifestManager.calculate_file_hash`: an unreadable file
(`IOError`) yields the empty-string sentinel, otherwise the digest of
`hashInput` under an abstract MD5 function. -/
def calculate_file_hash (md5 : List Nat → String) (file : Option (List Nat)) :
    String :=
  match file with
  | none => ""
  | some content => md5 (hashInput content)

/-- Embeds `ManifestManager.is_file_processed`.  `fp` abstracts
`calculate_file_hash` composed with reading the file at a path: it maps a
path to the digest string (possibly `""` for an unreadable file). -/
def is_file_processed (fp : String → String) (d : ManifestData)
    (filename path : String) : Bool :=
  match lookupFile (filesOf d) filename with
  | none => false
  | some info =>
    if info.hash = "" then false
    else if info.hash = fp path then true else false

/-- Embeds `ManifestManager.get_pending_files`; `bn` abstracts
`os.path.basename`. -/
def get_pending_files (fp bn : String → String) (d : ManifestData)
    (all_files : List String) : List String :=
  all_files.filter (fun p => ! is_file_processed fp d (bn p) p)

/-- C1: for every ledger and list of on-disk paths, `get_pending_files`
returns exactly the paths whose basename is absent from the files mapping,
or whose stored fingerprint is empty, or whose freshly computed fingerprint
differs from the stored one; all other paths are excluded. -/
theorem get_pending_files_spec (fp bn : String → String) (d : ManifestData)
    (all_files : List String) (p : String) :
    p ∈ get_pending_files fp bn d all_files ↔
      p ∈ all_files ∧
        (lookupFile (filesOf d) (bn p) = none ∨
          ∃ r, lookupFile (filesOf d) (bn p) = some r ∧
            (r.hash = "" ∨ r.hash ≠ fp p)) := by
  unfold get_pending_files
  rw [List.mem_filter]
  constructor
  · rintro ⟨hmem, hpend⟩
    refine ⟨hmem, ?_⟩
    unfold is_file_processed at hpend
    cases hlk : lookupFile (filesOf d) (bn p) with
    | none => exact Or.inl rfl
    | some r =>
      refine Or.inr ⟨r, rfl, ?_⟩
      rw [hlk] at hpend
      by_cases hh : r.hash = ""
      · exact Or.inl hh
      · refine Or.inr ?_
        intro heq
        have hpend' : (!(if r.hash = "" then false
            else if r.hash = fp p then true else false)) = true := hpend
        rw [if_neg hh, if_pos heq] at hpend'
        simp at hpend'
  · rintro ⟨hmem, hcond⟩
    refine ⟨hmem, ?_⟩
    unfold is_file_processed
    rcases hcond with hnone | ⟨r, hlk, hr⟩
    · simp [hnone]
    · rw [hlk]
      rcases hr with hh | hne
      · simp [hh]
      · by_cases hh : r.hash = ""
        · simp [hh]
        · simp [hh, hne]

/-- C2 counterexample: the claim that a file of size at most 128 KiB is
digested over its entire content exactly once is false: for the 3-byte
content `[1, 2, 3]`, `calculate_file_hash` digests `[1, 2, 3, 1, 2, 3]` —
the whole content twice, because the code always reads the first 64 KiB
and then re-reads the last `min(64 KiB, size)` bytes. -/
theorem hash_input_small_file_cex :
    ¬ (∀ content : List Nat,
        (content.length ≤ 131072 → hashInput content = content) ∧
        (131072 < content.length →
          hashInput content =
            content.take 65536 ++ content.drop (content.length - 65536))) := by
  intro h
  have h2 := (h [1, 2, 3]).1 (by norm_num)
  revert h2
  decide

/-- C2 amended: for every readable file, the digested byte stream is the
first 64 KiB (or the whole content, if shorter) concatenated with the last
`min(64 KiB, size)` bytes; in particular a file larger than 128 KiB is
digested over its first 64 KiB concatenated with its last 64 KiB, a file of
exactly 128 KiB is digested over its entire content exactly once, and a
smaller file has bytes near its start and end digested twice. -/
theorem hash_input_amended (content : List Nat) :
    (∃ tail, tail <:+ content ∧ tail.length = min 65536 content.length ∧
        hashInput content = content.take 65536 ++ tail) ∧
    (content.length = 131072 → hashInput content = content) ∧
    (131072 < content.length →
      hashInput content =
        content.take 65536 ++ content.drop (content.length - 65536)) := by
  have hmin : min 65536 content.length ≤ content.length := Nat.min_le_right _ _
  have hlen : (content.drop (content.length - min 65536 content.length)).length
      = min 65536 content.length := by
    rw [List.length_drop]
    omega
  have htake : (content.drop (content.length - min 65536 content.length)).take 65536
      = content.drop (content.length - min 65536 content.length) := by
    apply List.take_of_length_le
    rw [hlen]
    exact Nat.min_le_left _ _
  refine ⟨⟨content.drop (content.length - min 65536 content.length),
      List.drop_suffix _ _, hlen, ?_⟩, ?_, ?_⟩
  · unfold hashInput
    rw [htake]
  · intro h128
    unfold hashInput
    rw [htake]
    have hm : min 65536 content.length = 65536 := by omega
    rw [hm, h128]
    show content.take 65536 ++ content.drop (131072 - 65536) = content
    norm_num
  · intro hbig
    unfold hashInput
    rw [htake]
    have hm : min 65536 content.length = 65536 := by omega
    rw [hm]

/-- C2 amended, witness: concrete evaluation of the suffix decomposition at
a small content. -/
theorem hash_input_amended_witness :
    ∃ tail, tail <:+ ([1, 2, 3] : List Nat) ∧
      tail.length = min 65536 ([1, 2, 3] : List Nat).length ∧
      hashInput [1, 2, 3] = ([1, 2, 3] : List Nat).take 65536 ++ tail :=
  (hash_input_amended [1, 2, 3]).1

/-- Embeds `ManifestManager.add_file_result`: computes the fingerprint of
the file at `path` (via the abstract `fp`), inserts/overwrites the record
(scores rounded to two decimals), and recomputes
`processed_files = len(files)`.  `now` is the `datetime.now().isoformat()`
timestamp. -/
def add_file_result (fp : String → String) (now : String) (d : ManifestData)
    (filename path : String) (quality aesthetic total : ℚ) (rating : Int) :
    ManifestData :=
  let file_hash := fp path
  let files' := insertOrReplace (filesOf d) filename
    ⟨file_hash, some path, round2 quality, round2 aesthetic, round2 total,
      rating, now⟩
  { d with files := .mapping files', processed_files := some files'.length }

theorem insertOrReplace_idem (l : List (String × FileRecord)) (k : String)
    (v : FileRecord) :
    insertOrReplace (insertOrReplace l k v) k v = insertOrReplace l k v := by
  induction l with
  | nil => simp [insertOrReplace]
  | cons hd tl ih =>
    by_cases h : hd.1 = k
    · obtain ⟨k', v'⟩ := hd
      simp only at h
      simp [insertOrReplace, h]
    · obtain ⟨k', v'⟩ := hd
      simp only at h
      simp [insertOrReplace, h, ih]

/-- C3: the upsert operation is idempotent — with the fingerprint oracle
and the timestamp held fixed (they are explicit arguments of the
embedding), calling `add_file_result` twice with identical arguments
yields exactly the same ledger state as calling it once, in particular the
same `processed_files` count and the same stored record. -/
theorem add_file_result_idempotent (fp : String → String) (now : String)
    (d : ManifestData) (filename path : String)
    (quality aesthetic total : ℚ) (rating : Int) :
    add_file_result fp now
        (add_file_result fp now d filename path quality aesthetic total rating)
        filename path quality aesthetic total rating =
      add_file_result fp now d filename path quality aesthetic total rating := by
  unfold add_file_result
  simp only [filesOf, insertOrReplace_idem]

/-- A file-system operation issued by `save()`.  `open(path, "w")`
truncates the target; `json.dump` then writes the serialized document.
File contents are modelled as the list of chunks written since the last
truncation, so the previously persisted document `doc` is `some [doc]`. -/
inductive FsOp where
  | truncate (path : String)
  | write (path : String) (chunk : String)
  deriving DecidableEq

/-- Applies one file-system operation to a file-system state. -/
def applyOp (fs : String → Option (List String)) :
    FsOp → (String → Option (List String))
  | .truncate p => fun q => if q = p then some [] else fs q
  | .write p s => fun q => if q = p then some (((fs p).getD []) ++ [s]) else fs q

/-- Runs a list of file-system operations in order. -/
def runOps (fs : String → Option (List String)) (ops : List FsOp) :
    String → Option (List String) :=
  ops.foldl applyOp fs

/-- The operation sequence issued by `ManifestManager.save`:
`open(self.manifest_path, "w")` (truncate) followed by `json.dump`
(write the serialized document `doc`).  There is no temporary file and no
replace step. -/
def saveOps (path doc : String) : List FsOp :=
  [.truncate path, .write path doc]

/-- The pure part of `save()`: it first refreshes `updated_at` with the
current time. -/
def save_refresh (now : String) (d : ManifestData) : ManifestData :=
  { d with updated_at := some now }

/-- The file-system state with a previously persisted valid ledger `OLD`
at `m.json`. -/
def cexFs : String → Option (List String) :=
  fun p => if p = "m.json" then some ["OLD"] else none

/-- C4 counterexample: `save()` is not atomic.  Interrupting the operation
sequence of `save` after its first step (the truncating `open`) leaves the
target file empty — neither the previously persisted ledger `OLD` nor the
complete new document `NEW` — so the prior valid ledger does not survive an
interrupted save. -/
theorem save_not_atomic_cex :
    ¬ (∀ k : Nat,
        runOps cexFs ((saveOps "m.json" "NEW").take k) "m.json" = some ["OLD"] ∨
        runOps cexFs ((saveOps "m.json" "NEW").take k) "m.json" = some ["NEW"]) := by
  intro h
  rcases h 1 with h1 | h1 <;> revert h1 <;> decide

/-- C4 amended: `save()` refreshes `updatedAt` and writes the complete
document directly to the target path — a truncating open followed by the
write, with no temporary location and no replace step — so a completed
save leaves exactly the new document and touches no other path, but an
interruption between the truncation and the completed write leaves the
target torn (empty), not the previously persisted ledger. -/
theorem save_direct_write (fs : String → Option (List String))
    (p doc now : String) (d : ManifestData) :
    runOps fs (saveOps p doc) p = some [doc] ∧
    (∀ q, q ≠ p → runOps fs (saveOps p doc) q = fs q) ∧
    runOps fs ((saveOps p doc).take 1) p = some [] ∧
    (save_refresh now d).updated_at = some now := by
  refine ⟨?_, ?_, ?_, rfl⟩
  · simp [runOps, saveOps, applyOp]
  · intro q hq
    simp [runOps, saveOps, applyOp, hq]
  · simp [runOps, saveOps, applyOp]

/-- C4 amended, witness: concrete run of the save operation sequence over
the file system holding the previously persisted ledger. -/
theorem save_direct_write_witness :
    runOps cexFs (saveOps "m.json" "NEW") "m.json" = some ["NEW"] :=
  (save_direct_write cexFs "m.json" "NEW" "t"
    ⟨none, none, none, none, none, none, none, .mapping [], none, none, none⟩).1

/-- The per-record computation inside `quick_rerate`:
`total = quality * quality_weight + aesthetic * aesthetic_weight`, then the
`if total >= t4 ... elif ... else 0` chain mapping the total to a star
rating. -/
def rate (quality aesthetic qw aw t4 t3 t2 t1 : ℚ) : ℚ × Int :=
  let total := quality * qw + aesthetic * aw
  (total,
    if t4 ≤ total then 4
    else if t3 ≤ total then 3
    else if t2 ≤ total then 2
    else if t1 ≤ total then 1
    else 0)

/-- One element of the change list returned by `quick_rerate`. -/
structure RerateEntry where
  filename : String
  old_rating : Int
  new_rating : Int
  total : ℚ
  changed : Bool
  deriving DecidableEq

/-- The `update_file_rating` effect of one `quick_rerate` iteration on a
stored record: only `rating` and `processed_at` are mutated; the cached
`quality`, `aesthetic` and `total` are left untouched. -/
def rerateRecord (now : String) (t4 t3 t2 t1 qw aw : ℚ) (r : FileRecord) :
    FileRecord :=
  { r with
    rating := (rate r.quality r.aesthetic qw aw t4 t3 t2 t1).2
    processed_at := now }

/-- Embeds the free function `quick_rerate`: on a ledger whose status is
not `"completed"` it raises `ValueError` (modelled as `.error`) before
touching anything; otherwise it recomputes every cached record's total and
rating from the stored quality/aesthetic under the new weights and
thresholds, updates each record's rating and `processed_at` (via
`update_file_rating`), stores the new config, saves (refreshing
`updated_at` with `now`), and returns the change list together with the
resulting ledger. -/
def quick_rerate (now : String) (d : ManifestData) (t4 t3 t2 t1 qw aw : ℚ) :
    Except String (List RerateEntry × ManifestData) :=
  if statusOf d = "completed" then
    let results := (filesOf d).map (fun kv =>
      ⟨kv.1, kv.2.rating, (rate kv.2.quality kv.2.aesthetic qw aw t4 t3 t2 t1).2,
        round2 (rate kv.2.quality kv.2.aesthetic qw aw t4 t3 t2 t1).1,
        decide (kv.2.rating ≠ (rate kv.2.quality kv.2.aesthetic qw aw t4 t3 t2 t1).2)⟩)
    let files' := (filesOf d).map (fun kv =>
      (kv.1, rerateRecord now t4 t3 t2 t1 qw aw kv.2))
    .ok (results,
      save_refresh now
        { d with files := .mapping files', config := some ⟨[t4, t3, t2, t1], qw, aw⟩ })
  else
    .error "目录未完成处理，无法快速重评星"

/-- C5: quick re-rate on a ledger whose status is not `"completed"` fails
explicitly with an error to the caller — it returns no updated ledger and
no recomputed ratings — and it succeeds exactly when the status is
`"completed"`. -/
theorem quick_rerate_requires_completed (now : String) (d : ManifestData)
    (t4 t3 t2 t1 qw aw : ℚ) :
    (statusOf d ≠ "completed" →
      quick_rerate now d t4 t3 t2 t1 qw aw =
        .error "目录未完成处理，无法快速重评星") ∧
    ((∃ res, quick_rerate now d t4 t3 t2 t1 qw aw = .ok res) ↔
      statusOf d = "completed") := by
  constructor
  · intro h
    simp [quick_rerate, h]
  · constructor
    · rintro ⟨res, hres⟩
      by_contra h
      simp [quick_rerate, h] at hres
    · intro h
      simp only [quick_rerate, if_pos h]
      exact ⟨_, rfl⟩

/-- C5 witness: on a concrete freshly created ledger (status `"new"`),
quick re-rate is rejected with the explicit error. -/
theorem quick_rerate_requires_completed_witness :
    quick_rerate "t"
        ⟨some "1.0", none, none, none, some "new", none, none, .mapping [],
          none, none, none⟩
        78 72 66 58 (2/5) (3/5) =
      .error "目录未完成处理，无法快速重评星" :=
  (quick_rerate_requires_completed "t"
    ⟨some "1.0", none, none, none, some "new", none, none, .mapping [],
      none, none, none⟩
    78 72 66 58 (2/5) (3/5)).1 (by decide)

/-- The threshold of star bucket `k` for thresholds `(t4, t3, t2, t1)`. -/
def bucketThreshold (t4 t3 t2 t1 : ℚ) (k : Int) : ℚ :=
  if k = 4 then t4 else if k = 3 then t3 else if k = 2 then t2 else t1

/-- C6: for strictly descending thresholds, the rating policy computes
`total = quality*qw + aesthetic*aw` and assigns the highest bucket `k` in
{4, 3, 2, 1} whose threshold the total reaches (ties go to the higher
bucket, `>=` not `>`), else 0; the assigned rating is always in [0, 4] and
in particular never 5. -/
theorem rate_assigns_highest_bucket (q a qw aw t4 t3 t2 t1 : ℚ)
    (h43 : t3 < t4) (h32 : t2 < t3) (h21 : t1 < t2) :
    (rate q a qw aw t4 t3 t2 t1).1 = q * qw + a * aw ∧
    0 ≤ (rate q a qw aw t4 t3 t2 t1).2 ∧
    (rate q a qw aw t4 t3 t2 t1).2 ≤ 4 ∧
    (∀ k : Int, 1 ≤ k → k ≤ 4 →
      bucketThreshold t4 t3 t2 t1 k ≤ (rate q a qw aw t4 t3 t2 t1).1 →
      k ≤ (rate q a qw aw t4 t3 t2 t1).2) ∧
    (1 ≤ (rate q a qw aw t4 t3 t2 t1).2 →
      bucketThreshold t4 t3 t2 t1 (rate q a qw aw t4 t3 t2 t1).2 ≤
        (rate q a qw aw t4 t3 t2 t1).1) := by
  unfold rate bucketThreshold
  set total := q * qw + a * aw with htot
  by_cases h4 : t4 ≤ total
  · simp only [h4, if_true]
    refine ⟨by trivial, by norm_num, by norm_num, ?_, ?_⟩
    · intro k h1 hk4 _; exact hk4
    · intro _; simpa using h4
  · by_cases h3 : t3 ≤ total
    · simp only [h4, if_false, h3, if_true]
      refine ⟨by trivial, by norm_num, by norm_num, ?_, ?_⟩
      · intro k h1 hk4 hth
        by_contra hgt
        push_neg at hgt
        interval_cases k
        · simp at hth; exact h4 hth
      · intro _; simpa using h3
    · by_cases h2 : t2 ≤ total
      · simp only [h4, if_false, h3, h2, if_true]
        refine ⟨by trivial, by norm_num, by norm_num, ?_, ?_⟩
        · intro k h1 hk4 hth
          by_contra hgt
          push_neg at hgt
          interval_cases k
          · simp at hth; exact h3 hth
          · simp at hth; exact h4 hth
        · intro _; simpa using h2
      · by_cases h1 : t1 ≤ total
        · simp only [h4, if_false, h3, h2, h1, if_true]
          refine ⟨by trivial, by norm_num, by norm_num, ?_, ?_⟩
          · intro k hk1 hk4 hth
            by_contra hgt
            push_neg at hgt
            interval_cases k
            · simp at hth; exact h2 hth
            · simp at hth; exact h3 hth
            · simp at hth; exact h4 hth
          · intro _; simpa using h1
        · simp only [h4, if_false, h3, h2, h1]
          refine ⟨by trivial, by norm_num, by norm_num, ?_, ?_⟩
          · intro k hk1 hk4 hth
            exfalso
            interval_cases k
            · simp at hth; exact h1 hth
            · simp at hth; exact h2 hth
            · simp at hth; exact h3 hth
            · simp at hth; exact h4 hth
          · intro habs; omega

/-- C6 witness: the spec's worked example — quality 80, aesthetic 70,
weights 0.4/0.6 give total 74, and thresholds (78, 72, 66, 58) give
rating 3 (which reaches bucket 3's threshold and is at most 4). -/
theorem rate_assigns_highest_bucket_witness :
    rate 80 70 (2/5) (3/5) 78 72 66 58 = (74, 3) ∧
    (rate 80 70 (2/5) (3/5) 78 72 66 58).1 = 80 * (2/5) + 70 * (3/5) ∧
    (rate 80 70 (2/5) (3/5) 78 72 66 58).2 ≤ 4 :=
  ⟨by norm_num [rate],
   (rate_assigns_highest_bucket 80 70 (2/5) (3/5) 78 72 66 58
      (by norm_num) (by norm_num) (by norm_num)).1,
   (rate_assigns_highest_bucket 80 70 (2/5) (3/5) 78 72 66 58
      (by norm_num) (by norm_num) (by norm_num)).2.2.1⟩

/-- The record `_migrate_old_format` builds for one legacy entry:
`hash` is the empty string (the old format has no hash), scores default to
0, and `processed_at` is the legacy document's `created` field. -/
def mkMigratedRecord (created : String) (e : LegacyEntry) : FileRecord :=
  let scores := e.scores.getD ⟨none, none, none⟩
  ⟨"", none, scores.quality.getD 0, scores.aesthetic.getD 0,
    scores.total.getD 0, e.rating.getD 0, created⟩

/-- One iteration of the migration loop: entries whose `filename` is empty
are skipped (`if filename:`), the rest are written into the new dict. -/
def migrateStep (created : String) (acc : List (String × FileRecord))
    (e : LegacyEntry) : List (String × FileRecord) :=
  let fn := e.filename.getD ""
  if fn = "" then acc else insertOrReplace acc fn (mkMigratedRecord created e)

/-- The migration loop of `_migrate_old_format` building `new_files`. -/
def migrate_files (created : String) (entries : List LegacyEntry) :
    List (String × FileRecord) :=
  entries.foldl (migrateStep created) []

/-- The `config` backfill of `_migrate_old_format`: taken from the legacy
`settings` sub-document, with defaults `[78, 72, 66, 58]`, 0.4 and 0.6. -/
def configFromSettings (s : Option Settings) : Config :=
  let st := s.getD ⟨none, none, none⟩
  ⟨st.thresholds.getD [78, 72, 66, 58], st.quality_weight.getD (4/10),
    st.aesthetic_weight.getD (6/10)⟩

/-- Embeds `ManifestManager._migrate_old_format` (source name starts with
an underscore).  A mapping-shaped `files` field is left untouched and
nothing is saved; a legacy list-shaped one is converted to the mapping
schema, `processed_files` is set to `len(new_files)`, missing `version`,
`status`, `created_at`, `updated_at`, `config` and `total_files` fields are
backfilled (status defaulting to `"completed"`), and the result is
immediately saved (the returned Bool records whether `save()` ran; saving
refreshes `updated_at` with `now`). -/
def migrate_old_format (now : String) (d : ManifestData) :
    ManifestData × Bool :=
  match d.files with
  | .mapping _ => (d, false)
  | .legacy entries =>
    let new_files := migrate_files (d.created.getD "") entries
    let d1 : ManifestData :=
      { d with
        files := .mapping new_files,
        processed_files := some new_files.length,
        version := some (d.version.getD MANIFEST_VERSION),
        status := some (d.status.getD "completed"),
        created_at := some (d.created_at.getD (d.created.getD "")),
        updated_at := some (d.updated_at.getD (d.created.getD "")),
        config := some (d.config.getD (configFromSettings d.settings)),
        total_files := some (d.total_files.getD
          ((d.statistics.bind Statistics.total).getD new_files.length)) }
    (save_refresh now d1, true)

theorem lookupFile_insertOrReplace (l : List (String × FileRecord))
    (k fn : String) (v : FileRecord) :
    lookupFile (insertOrReplace l k v) fn =
      if k = fn then some v else lookupFile l fn := by
  induction l with
  | nil => simp [insertOrReplace, lookupFile]
  | cons hd tl ih =>
    obtain ⟨k', v'⟩ := hd
    by_cases h : k' = k
    · subst h
      by_cases hfn : k' = fn
      · subst hfn
        simp [insertOrReplace, lookupFile]
      · simp [insertOrReplace, lookupFile, hfn]
    · by_cases hfn : k' = fn
      · subst hfn
        have hkfn : ¬ k = k' := fun hc => h hc.symm
        simp [insertOrReplace, lookupFile, h, hkfn]
      · simp [insertOrReplace, lookupFile, h, hfn, ih]

theorem insertOrReplace_length_of_fresh (l : List (String × FileRecord))
    (k : String) (v : FileRecord) (h : lookupFile l k = none) :
    (insertOrReplace l k v).length = l.length + 1 := by
  induction l with
  | nil => simp [insertOrReplace]
  | cons hd tl ih =>
    obtain ⟨k', v'⟩ := hd
    by_cases hk : k' = k
    · subst hk
      simp [lookupFile] at h
    · simp only [lookupFile, if_neg hk] at h
      simp [insertOrReplace, hk, ih h]

theorem mem_insertOrReplace (l : List (String × FileRecord)) (k : String)
    (v : FileRecord) (kv : String × FileRecord)
    (h : kv ∈ insertOrReplace l k v) : kv ∈ l ∨ kv = (k, v) := by
  induction l with
  | nil => simp [insertOrReplace] at h; exact Or.inr h
  | cons hd tl ih =>
    obtain ⟨k', v'⟩ := hd
    by_cases hk : k' = k
    · simp only [insertOrReplace, if_pos hk] at h
      rcases List.mem_cons.mp h with h1 | h1
      · exact Or.inr h1
      · exact Or.inl (List.mem_cons_of_mem _ h1)
    · simp only [insertOrReplace, if_neg hk] at h
      rcases List.mem_cons.mp h with h1 | h1
      · exact Or.inl (h1 ▸ List.mem_cons_self _ _)
      · rcases ih h1 with h2 | h2
        · exact Or.inl (List.mem_cons_of_mem _ h2)
        · exact Or.inr h2

theorem lookupFile_mem (l : List (String × FileRecord)) (fn : String)
    (rec : FileRecord) (h : lookupFile l fn = some rec) : (fn, rec) ∈ l := by
  induction l with
  | nil => simp [lookupFile] at h
  | cons hd tl ih =>
    obtain ⟨k', v'⟩ := hd
    by_cases hk : k' = fn
    · subst hk
      simp [lookupFile] at h
      rw [← h]
      exact List.mem_cons_self _ _
    · simp only [lookupFile, if_neg hk] at h
      exact List.mem_cons_of_mem _ (ih h)

theorem migrate_files_go_keys (created : String) (entries : List LegacyEntry)
    (acc : List (String × FileRecord)) (fn : String) :
    lookupFile (entries.foldl (migrateStep created) acc) fn ≠ none ↔
      (lookupFile acc fn ≠ none ∨
        (fn ≠ "" ∧ fn ∈ entries.map (fun e => e.filename.getD ""))) := by
  induction entries generalizing acc with
  | nil => simp
  | cons e rest ih =>
    simp only [List.foldl_cons, List.map_cons, List.mem_cons]
    rw [ih]
    unfold migrateStep
    by_cases he : e.filename.getD "" = ""
    · rw [if_pos he]
      constructor
      · rintro (h | h)
        · exact Or.inl h
        · exact Or.inr ⟨h.1, Or.inr h.2⟩
      · rintro (h | ⟨hne, h1 | h1⟩)
        · exact Or.inl h
        · exact absurd (h1 ▸ he) hne
        · exact Or.inr ⟨hne, h1⟩
    · rw [if_neg he]
      rw [lookupFile_insertOrReplace]
      by_cases hfe : e.filename.getD "" = fn
      · rw [if_pos hfe]
        simp only [ne_eq, reduceCtorEq, not_false_eq_true, true_or, true_iff]
        exact Or.inr ⟨hfe ▸ he, Or.inl hfe.symm⟩
      · rw [if_neg hfe]
        constructor
        · rintro (h | h)
          · exact Or.inl h
          · exact Or.inr ⟨h.1, Or.inr h.2⟩
        · rintro (h | ⟨hne, h1 | h1⟩)
          · exact Or.inl h
          · exact absurd h1.symm hfe
          · exact Or.inr ⟨hne, h1⟩

theorem migrate_files_go_hash (created : String) (entries : List LegacyEntry)
    (acc : List (String × FileRecord))
    (hacc : ∀ kv ∈ acc, (kv : String × FileRecord).2.hash = "") :
    ∀ kv ∈ entries.foldl (migrateStep created) acc, kv.2.hash = "" := by
  induction entries generalizing acc with
  | nil => exact hacc
  | cons e rest ih =>
    simp only [List.foldl_cons]
    apply ih
    intro kv hkv
    unfold migrateStep at hkv
    by_cases he : e.filename.getD "" = ""
    · rw [if_pos he] at hkv
      exact hacc kv hkv
    · rw [if_neg he] at hkv
      rcases mem_insertOrReplace _ _ _ _ hkv with h | h
      · exact hacc kv h
      · rw [h]
        rfl

theorem migrate_files_go_length (created : String)
    (entries : List LegacyEntry) (acc : List (String × FileRecord))
    (hnd : (entries.map (fun e => e.filename.getD "")).Nodup)
    (hne : ∀ e ∈ entries, e.filename.getD "" ≠ "")
    (hfresh : ∀ e ∈ entries, lookupFile acc (e.filename.getD "") = none) :
    (entries.foldl (migrateStep created) acc).length =
      acc.length + entries.length := by
  induction entries generalizing acc with
  | nil => simp
  | cons e rest ih =>
    simp only [List.foldl_cons, List.length_cons]
    have hef : e.filename.getD "" ≠ "" := hne e (List.mem_cons_self _ _)
    have hfr : lookupFile acc (e.filename.getD "") = none :=
      hfresh e (List.mem_cons_self _ _)
    rw [List.map_cons, List.nodup_cons] at hnd
    have hfresh' : ∀ e' ∈ rest,
        lookupFile (migrateStep created acc e) (e'.filename.getD "") = none := by
      intro e' he'
      have hkne : e.filename.getD "" ≠ e'.filename.getD "" := by
        intro hcontra
        exact hnd.1 (hcontra ▸
          List.mem_map_of_mem (fun e => e.filename.getD "") he')
      unfold migrateStep
      rw [if_neg hef, lookupFile_insertOrReplace, if_neg hkne]
      exact hfresh e' (List.mem_cons_of_mem _ he')
    rw [ih (migrateStep created acc e) hnd.2
      (fun e' he' => hne e' (List.mem_cons_of_mem _ he')) hfresh']
    have hlen : (migrateStep created acc e).length = acc.length + 1 := by
      unfold migrateStep
      rw [if_neg hef]
      exact insertOrReplace_length_of_fresh _ _ _ hfr
    rw [hlen]
    omega

/-- C8: loading a ledger whose persisted `files` field is a legacy list
converts it in place into a mapping keyed by the entries' filenames, with
`processed_files` equal to the number of migrated entries (in particular,
equal to the number of entries whenever their filenames are nonempty and
distinct, e.g. 3 for 3 such entries), sets status to `"completed"` when
the legacy document has no status field, and immediately persists the
migrated form (the `save()` flag is true). -/
theorem migrate_legacy (now : String) (d : ManifestData)
    (entries : List LegacyEntry) (hleg : d.files = .legacy entries) :
    (migrate_old_format now d).1.files =
        .mapping (migrate_files (d.created.getD "") entries) ∧
    (migrate_old_format now d).1.processed_files =
        some (migrate_files (d.created.getD "") entries).length ∧
    (∀ fn, lookupFile (migrate_files (d.created.getD "") entries) fn ≠ none ↔
        (fn ≠ "" ∧ fn ∈ entries.map (fun e => e.filename.getD ""))) ∧
    (d.status = none → (migrate_old_format now d).1.status = some "completed") ∧
    (migrate_old_format now d).2 = true ∧
    ((entries.map (fun e => e.filename.getD "")).Nodup →
      (∀ e ∈ entries, e.filename.getD "" ≠ "") →
      (migrate_files (d.created.getD "") entries).length = entries.length) := by
  refine ⟨?_, ?_, ?_, ?_, ?_, ?_⟩
  · unfold migrate_old_format
    rw [hleg]
    rfl
  · unfold migrate_old_format
    rw [hleg]
    rfl
  · intro fn
    unfold migrate_files
    rw [migrate_files_go_keys]
    simp [lookupFile]
  · intro hst
    unfold migrate_old_format
    rw [hleg]
    simp [save_refresh, hst]
  · unfold migrate_old_format
    rw [hleg]
  · intro hnd hne
    unfold migrate_files
    rw [migrate_files_go_length (d.created.getD "") entries [] hnd hne
      (fun _ _ => rfl)]
    simp

/-- Three concrete legacy entries with distinct nonempty filenames. -/
def legacyEntriesC : List LegacyEntry :=
  [⟨some "a.jpg", some ⟨some 1, some 2, some 3⟩, some 0⟩,
   ⟨some "b.jpg", some ⟨some 4, some 5, some 6⟩, some 1⟩,
   ⟨some "c.jpg", none, none⟩]

/-- A concrete legacy ledger document: list-shaped `files` with 3 entries,
no `status`, `version`, `config` or timestamp fields, only the legacy
`created` key. -/
def dLegacy : ManifestData :=
  ⟨none, none, none, none, none, none, none, .legacy legacyEntriesC,
    some "2024-01-01", none, none⟩

/-- C8 witness: migrating the concrete 3-entry legacy ledger yields
`processed_files = 3` and `status = "completed"`. -/
theorem migrate_legacy_witness :
    (migrate_old_format "tnow" dLegacy).1.processed_files = some 3 ∧
    (migrate_old_format "tnow" dLegacy).1.status = some "completed" := by
  have h := migrate_legacy "tnow" dLegacy legacyEntriesC rfl
  refine ⟨?_, h.2.2.2.1 rfl⟩
  rw [h.2.1, h.2.2.2.2.2 (by decide) (by decide)]
  rfl

/-- C10: after migrating a legacy list-shaped ledger with no status field,
the ledger's status is `"completed"`, yet every migrated record's stored
fingerprint is the empty string, `is_file_processed` is false for every
filename and path (whatever the fingerprint oracle returns), and therefore
the pending computation reports every file — in particular every tracked
file — as pending: a migrated directory is fully re-scored on the next
batch run. -/
theorem migrated_ledger_all_pending (now : String) (d : ManifestData)
    (entries : List LegacyEntry) (hleg : d.files = .legacy entries)
    (hst : d.status = none) :
    (migrate_old_format now d).1.status = some "completed" ∧
    (∀ fn rec, lookupFile (filesOf (migrate_old_format now d).1) fn = some rec →
      rec.hash = "") ∧
    (∀ (fp : String → String) (fn p : String),
      is_file_processed fp (migrate_old_format now d).1 fn p = false) ∧
    (∀ (fp bn : String → String) (all_files : List String),
      get_pending_files fp bn (migrate_old_format now d).1 all_files =
        all_files) := by
  have hfiles : filesOf (migrate_old_format now d).1 =
      migrate_files (d.created.getD "") entries := by
    unfold migrate_old_format
    rw [hleg]
    rfl
  have hhash : ∀ fn rec,
      lookupFile (filesOf (migrate_old_format now d).1) fn = some rec →
      rec.hash = "" := by
    intro fn rec hlk
    rw [hfiles] at hlk
    exact migrate_files_go_hash _ _ _ (by simp) (fn, rec)
      (lookupFile_mem _ _ _ hlk)
  have hproc : ∀ (fp : String → String) (fn p : String),
      is_file_processed fp (migrate_old_format now d).1 fn p = false := by
    intro fp fn p
    unfold is_file_processed
    cases hlk : lookupFile (filesOf (migrate_old_format now d).1) fn with
    | none => rfl
    | some rec =>
      show (if rec.hash = "" then false
        else if rec.hash = fp p then true else false) = false
      rw [hhash fn rec hlk]
      simp
  refine ⟨?_, hhash, hproc, ?_⟩
  · unfold migrate_old_format
    rw [hleg]
    simp [save_refresh, hst]
  · intro fp bn all_files
    unfold get_pending_files
    apply List.filter_eq_self.mpr
    intro p _
    rw [hproc fp (bn p) p]
    rfl

/-- C10 witness: after migrating the concrete legacy ledger, every on-disk
path is pending. -/
theorem migrated_ledger_all_pending_witness :
    get_pending_files (fun _ => "x") (fun p => p)
        (migrate_old_format "tnow" dLegacy).1 ["a.jpg", "zz.png"] =
      ["a.jpg", "zz.png"] :=
  (migrated_ledger_all_pending "tnow" dLegacy legacyEntriesC rfl rfl).2.2.2
    (fun _ => "x") (fun p => p) ["a.jpg", "zz.png"]

theorem lookupFile_map (l : List (String × FileRecord))
    (g : FileRecord → FileRecord) (fn : String) :
    lookupFile (l.map (fun kv => (kv.1, g kv.2))) fn =
      (lookupFile l fn).map g := by
  induction l with
  | nil => simp [lookupFile]
  | cons hd tl ih =>
    obtain ⟨k', v'⟩ := hd
    by_cases hk : k' = fn <;> simp [lookupFile, hk, ih]

/-- A concrete record as stored after a batch run: quality 80,
aesthetic 70, total 74 cached under weights 0.4/0.6, rating 3. -/
def recA : FileRecord := ⟨"h", some "/p/a.jpg", 80, 70, 74, 3, "t0"⟩

/-- A concrete completed ledger holding `recA` with config weights
0.4/0.6. -/
def dCompleted : ManifestData :=
  ⟨some "1.0", some "c", some "u", some ⟨[78, 72, 66, 58], 2/5, 3/5⟩,
    some "completed", some 1, some 1, .mapping [("a.jpg", recA)],
    none, none, none⟩

/-- The ledger after quick re-rating `dCompleted` under new equal weights
0.5/0.5 (same thresholds). -/
def afterRerate : ManifestData :=
  match quick_rerate "t1" dCompleted 78 72 66 58 (1/2) (1/2) with
  | .ok (_, d') => d'
  | .error _ => dCompleted

/-- C7 counterexample: the stored total is not re-derivable from the
stored quality, the stored aesthetic and the current config weights after
a quick re-rate under new weights.  Quick re-rating `dCompleted` with
weights 0.5/0.5 updates the config to those weights but leaves the
record's cached `total` at 74 (computed under the old 0.4/0.6 weights),
while recomputing `quality*qualityWeight + aesthetic*aestheticWeight`
gives `80*0.5 + 70*0.5 = 75 ≠ 74`. -/
theorem total_not_rederivable_cex :
    afterRerate.config = some ⟨[78, 72, 66, 58], 1/2, 1/2⟩ ∧
    lookupFile (filesOf afterRerate) "a.jpg" =
      some ⟨"h", some "/p/a.jpg", 80, 70, 74, 3, "t1"⟩ ∧
    ¬ ((80 : ℚ) * (1/2) + 70 * (1/2) = 74) := by
  have hrate : rate 80 70 (1/2) (1/2) 78 72 66 58 = (75, 3) := by
    norm_num [rate]
  have hq : quick_rerate "t1" dCompleted 78 72 66 58 (1/2) (1/2) =
      .ok ([⟨"a.jpg", 3, 3, 75, false⟩],
        ⟨some "1.0", some "c", some "t1",
          some ⟨[78, 72, 66, 58], 1/2, 1/2⟩, some "completed", some 1, some 1,
          .mapping [("a.jpg", ⟨"h", some "/p/a.jpg", 80, 70, 74, 3, "t1"⟩)],
          none, none, none⟩) := by
    unfold quick_rerate
    rw [if_pos (show statusOf dCompleted = "completed" from rfl)]
    simp only [dCompleted, recA, filesOf, List.map_cons, List.map_nil,
      save_refresh, rerateRecord, hrate]
    norm_num [round2, round_eq]
  have ha : afterRerate =
      ⟨some "1.0", some "c", some "t1",
        some ⟨[78, 72, 66, 58], 1/2, 1/2⟩, some "completed", some 1, some 1,
        .mapping [("a.jpg", ⟨"h", some "/p/a.jpg", 80, 70, 74, 3, "t1"⟩)],
        none, none, none⟩ := by
    unfold afterRerate
    rw [hq]
  rw [ha]
  refine ⟨rfl, ?_, by norm_num⟩
  simp [filesOf, lookupFile]

/-- C7 amended: the stored total is exactly re-derivable from the stored
quality, the stored aesthetic and the weights used at upsert time —
immediately after an upsert whose `total` argument equals
`quality*qw + aesthetic*aw` and whose arguments are unchanged by
two-decimal rounding, the stored record satisfies
`total = quality*qw + aesthetic*aw`.  Quick re-rate, however, does not
rewrite stored totals: every record after a quick re-rate keeps exactly
the `total`, `quality` and `aesthetic` it had before, so under changed
weights the stored total reflects the old weights, not the current
config's. -/
theorem total_rederivable_amended :
    (∀ (fp : String → String) (now : String) (d : ManifestData)
        (fn p : String) (q a t : ℚ) (r : Int) (qw aw : ℚ),
      t = q * qw + a * aw → round2 q = q → round2 a = a → round2 t = t →
      ∃ rec, lookupFile (filesOf (add_file_result fp now d fn p q a t r)) fn
          = some rec ∧
        rec.total = rec.quality * qw + rec.aesthetic * aw) ∧
    (∀ (now : String) (d : ManifestData) (t4 t3 t2 t1 qw aw : ℚ)
        (res : List RerateEntry) (d' : ManifestData),
      quick_rerate now d t4 t3 t2 t1 qw aw = .ok (res, d') →
      ∀ fn rec', lookupFile (filesOf d') fn = some rec' →
        ∃ rec, lookupFile (filesOf d) fn = some rec ∧
          rec'.total = rec.total ∧ rec'.quality = rec.quality ∧
          rec'.aesthetic = rec.aesthetic) := by
  constructor
  · intro fp now d fn p q a t r qw aw ht hq2 ha2 ht2
    refine ⟨⟨fp p, some p, round2 q, round2 a, round2 t, r, now⟩, ?_, ?_⟩
    · show lookupFile (insertOrReplace (filesOf d) fn
          ⟨fp p, some p, round2 q, round2 a, round2 t, r, now⟩) fn = _
      rw [lookupFile_insertOrReplace, if_pos rfl]
    · show round2 t = round2 q * qw + round2 a * aw
      rw [hq2, ha2, ht2, ht]
  · intro now d t4 t3 t2 t1 qw aw res d' hok fn rec' hlk'
    unfold quick_rerate at hok
    by_cases h : statusOf d = "completed"
    · rw [if_pos h] at hok
      simp only [Except.ok.injEq, Prod.mk.injEq] at hok
      rw [← hok.2] at hlk'
      have hfiles : filesOf (save_refresh now
          { d with
            files := .mapping ((filesOf d).map (fun kv =>
              (kv.1, rerateRecord now t4 t3 t2 t1 qw aw kv.2)))
            config := some ⟨[t4, t3, t2, t1], qw, aw⟩ }) =
          (filesOf d).map (fun kv =>
            (kv.1, rerateRecord now t4 t3 t2 t1 qw aw kv.2)) := rfl
      rw [hfiles, lookupFile_map] at hlk'
      cases hrec : lookupFile (filesOf d) fn with
      | none => rw [hrec] at hlk'; simp at hlk'
      | some rec =>
        rw [hrec] at hlk'
        simp only [Option.map_some', Option.some.injEq] at hlk'
        refine ⟨rec, rfl, ?_, ?_, ?_⟩ <;> rw [← hlk'] <;> rfl
    · rw [if_neg h] at hok
      exact absurd hok (by simp)

/-- C7 amended, witness: a concrete upsert with exact arguments
(quality 80, aesthetic 70, weights 0.4/0.6, total 74) stores a record
whose total is exactly `quality*qw + aesthetic*aw`. -/
theorem total_rederivable_amended_witness :
    ∃ rec, lookupFile (filesOf (add_file_result (fun _ => "h") "t0" dCompleted
        "b.jpg" "/p/b.jpg" 80 70 74 3)) "b.jpg" = some rec ∧
      rec.total = rec.quality * (2/5) + rec.aesthetic * (3/5) :=
  total_rederivable_amended.1 (fun _ => "h") "t0" dCompleted "b.jpg" "/p/b.jpg"
    80 70 74 3 (2/5) (3/5) (by norm_num) (by norm_num [round2, round_eq])
    (by norm_num [round2, round_eq]) (by norm_num [round2, round_eq])

/-- The result counters of `restore_files`:
`{"moved": int, "failed": int, "already_in_place": int}`. -/
structure RestoreCounts where
  moved : Nat
  failed : Nat
  already_in_place : Nat
  deriving DecidableEq

/-- The six star-bucket directory names
`["0星", "1星", "2星", "3星", "4星", "5星"]` that `restore_files`
recognizes. -/
def starDirs : List String := ["0星", "1星", "2星", "3星", "4星", "5星"]

/-- Whether a file of the given name exists at the flat top-level
destination (`dest_path.exists()`).  Top-level contents are a list of
(name, content) pairs; content is an abstract `Nat` so that overwriting
and deletion are observable. -/
def hasName (top : List (String × Nat)) (n : String) : Bool :=
  top.any (fun f => f.1 = n)

/-- The in-flight state of the restore loop over one bucket folder:
the flat top-level contents, the files remaining in the bucket folder,
and the running counters. -/
structure RestoreState where
  top : List (String × Nat)
  kept : List (String × Nat)
  counts : RestoreCounts
  deriving DecidableEq

/-- One iteration of the inner loop of `restore_files` on one file of a
bucket folder: if a file of the same name already exists at the top level
it is counted `already_in_place` and the bucket copy stays; else the move
is attempted — on failure (`fails dn name`, abstracting a `shutil.move`
exception) it is counted `failed` and the file stays; on success the file
leaves the bucket for the top level and is counted `moved`. -/
def processFile (fails : String → String → Bool) (dn : String)
    (st : RestoreState) (f : String × Nat) : RestoreState :=
  if hasName st.top f.1 then
    ⟨st.top, st.kept ++ [f],
      ⟨st.counts.moved, st.counts.failed, st.counts.already_in_place + 1⟩⟩
  else if fails dn f.1 then
    ⟨st.top, st.kept ++ [f],
      ⟨st.counts.moved, st.counts.failed + 1, st.counts.already_in_place⟩⟩
  else
    ⟨st.top ++ [f], st.kept,
      ⟨st.counts.moved + 1, st.counts.failed, st.counts.already_in_place⟩⟩

/-- The inner loop of `restore_files` over all files of one bucket
folder. -/
def processBucket (fails : String → String → Bool) (dn : String)
    (l : List (String × Nat)) (top : List (String × Nat))
    (c : RestoreCounts) : RestoreState :=
  l.foldl (processFile fails dn) ⟨top, [], c⟩

/-- Pointwise update of the bucket map (the effect of rewriting one
directory's contents or deleting it). -/
def updateBucket (b : String → Option (List (String × Nat))) (k : String)
    (v : Option (List (String × Nat))) :
    String → Option (List (String × Nat)) :=
  fun q => if q = k then v else b q

/-- The outer loop of `restore_files` over the six star-bucket folder
names; a name mapped to `none` is an absent directory and is skipped
(`if not star_dir.exists() ...: continue`). -/
def processDirs (fails : String → String → Bool) :
    List String → (String → Option (List (String × Nat))) →
    List (String × Nat) → RestoreCounts →
    (String → Option (List (String × Nat))) × List (String × Nat) ×
      RestoreCounts
  | [], b, top, c => (b, top, c)
  | dn :: rest, b, top, c =>
    match b dn with
    | none => processDirs fails rest b top c
    | some fl =>
      let st := processBucket fails dn fl top c
      processDirs fails rest (updateBucket b dn (some st.kept)) st.top st.counts

/-- The cleanup pass of `restore_files`: each existing star-bucket folder
that is now empty is deleted; non-empty ones are retained. -/
def cleanupDirs : List String → (String → Option (List (String × Nat))) →
    (String → Option (List (String × Nat)))
  | [], b => b
  | dn :: rest, b =>
    if b dn = some [] then cleanupDirs rest (updateBucket b dn none)
    else cleanupDirs rest b

/-- Embeds `ManifestManager.restore_files` over a directory whose flat
top level holds `top` and whose star-bucket folders are given by `b`
(`none` = the folder does not exist).  `fails` abstracts per-file
`shutil.move` failures.  Returns the counters, the final top-level
contents and the final bucket folders. -/
def restore_files (fails : String → String → Bool)
    (top : List (String × Nat)) (b : String → Option (List (String × Nat))) :
    RestoreCounts × List (String × Nat) ×
      (String → Option (List (String × Nat))) :=
  let r := processDirs fails starDirs b top ⟨0, 0, 0⟩
  (r.2.2, r.2.1, cleanupDirs starDirs r.1)

theorem hasName_append (top ext : List (String × Nat)) (n : String)
    (h : hasName top n = true) : hasName (top ++ ext) n = true := by
  unfold hasName at *
  rw [List.any_append, h, Bool.true_or]

theorem processBucket_inv (fails : String → String → Bool) (dn : String)
    (l : List (String × Nat)) : ∀ (st : RestoreState),
    (∃ ext, (l.foldl (processFile fails dn) st).top = st.top ++ ext ∧
      (l.foldl (processFile fails dn) st).counts.moved =
        st.counts.moved + ext.length) ∧
    (∃ kn, (l.foldl (processFile fails dn) st).kept = st.kept ++ kn ∧
      kn.Sublist l ∧
      (l.foldl (processFile fails dn) st).counts.failed +
        (l.foldl (processFile fails dn) st).counts.already_in_place =
        st.counts.failed + st.counts.already_in_place + kn.length) ∧
    ((l.foldl (processFile fails dn) st).counts.moved +
      (l.foldl (processFile fails dn) st).counts.failed +
      (l.foldl (processFile fails dn) st).counts.already_in_place =
      st.counts.moved + st.counts.failed + st.counts.already_in_place +
        l.length) ∧
    (∀ f ∈ l, f ∉ (l.foldl (processFile fails dn) st).kept →
      f ∈ (l.foldl (processFile fails dn) st).top) ∧
    (∀ f ∈ l, hasName st.top f.1 = true →
      f ∈ (l.foldl (processFile fails dn) st).kept) := by
  induction l with
  | nil =>
    intro st
    refine ⟨⟨[], by simp, by simp⟩, ⟨[], by simp, by simp, by simp⟩,
      by simp, ?_, ?_⟩ <;> simp
  | cons f rest ih =>
    intro st
    simp only [List.foldl_cons]
    have hkept_mono : ∀ st' : RestoreState,
        ∀ g, g ∈ st'.kept → g ∈ (rest.foldl (processFile fails dn) st').kept := by
      intro st' g hg
      obtain ⟨_, ⟨kn, hkn, _, _⟩, _⟩ := ih st'
      rw [hkn]
      exact List.mem_append_left _ hg
    by_cases h1 : hasName st.top f.1 = true
    · have hs : processFile fails dn st f = ⟨st.top, st.kept ++ [f],
          ⟨st.counts.moved, st.counts.failed,
            st.counts.already_in_place + 1⟩⟩ := by
        unfold processFile
        rw [if_pos h1]
      rw [hs]
      obtain ⟨⟨ext, hext, hmov⟩, ⟨kn, hkn, hsub, hcnt⟩, hsum, hmem, hkeep⟩ :=
        ih ⟨st.top, st.kept ++ [f],
          ⟨st.counts.moved, st.counts.failed, st.counts.already_in_place + 1⟩⟩
      have hfkept : f ∈ (rest.foldl (processFile fails dn)
          ⟨st.top, st.kept ++ [f],
            ⟨st.counts.moved, st.counts.failed,
              st.counts.already_in_place + 1⟩⟩).kept := by
        rw [hkn]
        exact List.mem_append_left _ (List.mem_append_right _ (by simp))
      refine ⟨⟨ext, hext, hmov⟩, ⟨f :: kn, ?_, hsub.cons₂ f, ?_⟩, ?_, ?_, ?_⟩
      · rw [hkn, List.append_assoc]
        rfl
      · rw [hcnt]
        simp
        omega
      · rw [hsum]
        simp
        omega
      · intro g hg hnk
        rcases List.mem_cons.mp hg with hgf | hgr
        · exact absurd (hgf ▸ hfkept) hnk
        · exact hmem g hgr hnk
      · intro g hg hname
        rcases List.mem_cons.mp hg with hgf | hgr
        · exact hgf ▸ hfkept
        · exact hkeep g hgr hname
    · by_cases h2 : fails dn f.1 = true
      · have hs : processFile fails dn st f = ⟨st.top, st.kept ++ [f],
            ⟨st.counts.moved, st.counts.failed + 1,
              st.counts.already_in_place⟩⟩ := by
          unfold processFile
          rw [if_neg h1, if_pos h2]
        rw [hs]
        obtain ⟨⟨ext, hext, hmov⟩, ⟨kn, hkn, hsub, hcnt⟩, hsum, hmem, hkeep⟩ :=
          ih ⟨st.top, st.kept ++ [f],
            ⟨st.counts.moved, st.counts.failed + 1,
              st.counts.already_in_place⟩⟩
        have hfkept : f ∈ (rest.foldl (processFile fails dn)
            ⟨st.top, st.kept ++ [f],
              ⟨st.counts.moved, st.counts.failed + 1,
                st.counts.already_in_place⟩⟩).kept := by
          rw [hkn]
          exact List.mem_append_left _ (List.mem_append_right _ (by simp))
        refine ⟨⟨ext, hext, hmov⟩, ⟨f :: kn, ?_, hsub.cons₂ f, ?_⟩, ?_, ?_, ?_⟩
        · rw [hkn, List.append_assoc]
          rfl
        · rw [hcnt]
          simp
          omega
        · rw [hsum]
          simp
          omega
        · intro g hg hnk
          rcases List.mem_cons.mp hg with hgf | hgr
          · exact absurd (hgf ▸ hfkept) hnk
          · exact hmem g hgr hnk
        · intro g hg hname
          rcases List.mem_cons.mp hg with hgf | hgr
          · exact hgf ▸ hfkept
          · exact hkeep g hgr hname
      · have hs : processFile fails dn st f = ⟨st.top ++ [f], st.kept,
            ⟨st.counts.moved + 1, st.counts.failed,
              st.counts.already_in_place⟩⟩ := by
          unfold processFile
          rw [if_neg h1, if_neg h2]
        rw [hs]
        obtain ⟨⟨ext, hext, hmov⟩, ⟨kn, hkn, hsub, hcnt⟩, hsum, hmem, hkeep⟩ :=
          ih ⟨st.top ++ [f], st.kept,
            ⟨st.counts.moved + 1, st.counts.failed,
              st.counts.already_in_place⟩⟩
        have hftop : f ∈ (rest.foldl (processFile fails dn)
            ⟨st.top ++ [f], st.kept,
              ⟨st.counts.moved + 1, st.counts.failed,
                st.counts.already_in_place⟩⟩).top := by
          rw [hext]
          exact List.mem_append_left _ (List.mem_append_right _ (by simp))
        refine ⟨⟨f :: ext, ?_, ?_⟩, ⟨kn, hkn, hsub.cons f, hcnt⟩, ?_, ?_, ?_⟩
        · rw [hext, List.append_assoc]
          rfl
        · rw [hmov]
          simp
          omega
        · rw [hsum]
          simp
          omega
        · intro g hg hnk
          rcases List.mem_cons.mp hg with hgf | hgr
          · exact hgf ▸ hftop
          · exact hmem g hgr hnk
        · intro g hg hname
          rcases List.mem_cons.mp hg with hgf | hgr
          · exact absurd (hgf ▸ hname) h1
          · exact hkeep g hgr (hasName_append st.top [f] g.1 hname)

theorem processDirs_spec (fails : String → String → Bool) :
    ∀ (dirs : List String) (b : String → Option (List (String × Nat)))
      (top : List (String × Nat)) (c : RestoreCounts), dirs.Nodup →
    (∃ ext, (processDirs fails dirs b top c).2.1 = top ++ ext ∧
      (processDirs fails dirs b top c).2.2.moved = c.moved + ext.length) ∧
    ((processDirs fails dirs b top c).2.2.moved +
      (processDirs fails dirs b top c).2.2.failed +
      (processDirs fails dirs b top c).2.2.already_in_place =
      c.moved + c.failed + c.already_in_place +
        (dirs.map (fun dn => ((b dn).getD []).length)).sum) ∧
    (∀ dn ∈ dirs, ∀ fl, b dn = some fl →
      ∃ kept, kept.Sublist fl ∧
        (∀ f ∈ fl, f ∉ kept → f ∈ (processDirs fails dirs b top c).2.1) ∧
        (∀ f ∈ fl, hasName top f.1 = true → f ∈ kept) ∧
        (processDirs fails dirs b top c).1 dn = some kept) ∧
    (∀ dn, dn ∉ dirs → (processDirs fails dirs b top c).1 dn = b dn) ∧
    (∀ dn ∈ dirs, b dn = none →
      (processDirs fails dirs b top c).1 dn = none) := by
  intro dirs
  induction dirs with
  | nil =>
    intro b top c _
    refine ⟨⟨[], by simp [processDirs], by simp [processDirs]⟩,
      by simp [processDirs], by simp, fun dn _ => rfl, by simp⟩
  | cons dn rest ih =>
    intro b top c hnd
    rw [List.nodup_cons] at hnd
    cases hb : b dn with
    | none =>
      have hred : processDirs fails (dn :: rest) b top c =
          processDirs fails rest b top c := by
        simp only [processDirs]
        rw [hb]
      rw [hred]
      obtain ⟨hext, hsum, hthird, hfourth, hfifth⟩ := ih b top c hnd.2
      refine ⟨hext, ?_, ?_, ?_, ?_⟩
      · rw [hsum, List.map_cons, List.sum_cons, hb]
        simp
      · intro dn' hdn' fl hfl
        rcases List.mem_cons.mp hdn' with h | h
        · rw [h] at hfl
          rw [hfl] at hb
          exact absurd hb (by simp)
        · exact hthird dn' h fl hfl
      · intro dn' hdn'
        simp only [List.mem_cons, not_or] at hdn'
        exact hfourth dn' hdn'.2
      · intro dn' hdn' hnone
        rcases List.mem_cons.mp hdn' with h | h
        · rw [h]
          rw [hfourth dn hnd.1, hb]
        · exact hfifth dn' h hnone
    | some fl₀ =>
      have hred : processDirs fails (dn :: rest) b top c =
          processDirs fails rest
            (updateBucket b dn (some (processBucket fails dn fl₀ top c).kept))
            (processBucket fails dn fl₀ top c).top
            (processBucket fails dn fl₀ top c).counts := by
        simp only [processDirs]
        rw [hb]
      rw [hred]
      obtain ⟨⟨ext1, hext1, hmov1⟩, ⟨kn1, hkn1, hsub1, hcnt1⟩, hsum1,
        hmem1, hkeep1⟩ := processBucket_inv fails dn fl₀ ⟨top, [], c⟩
      have hkn1' : (processBucket fails dn fl₀ top c).kept = kn1 := by
        unfold processBucket
        rw [hkn1]
        rfl
      obtain ⟨⟨ext2, hext2, hmov2⟩, hsum2, hthird2, hfourth2, hfifth2⟩ :=
        ih (updateBucket b dn (some (processBucket fails dn fl₀ top c).kept))
          (processBucket fails dn fl₀ top c).top
          (processBucket fails dn fl₀ top c).counts hnd.2
      have hb'rest : ∀ dn' ∈ rest,
          updateBucket b dn (some (processBucket fails dn fl₀ top c).kept) dn'
            = b dn' := by
        intro dn' hdn'
        have : dn' ≠ dn := fun hc => hnd.1 (hc ▸ hdn')
        unfold updateBucket
        rw [if_neg this]
      refine ⟨⟨ext1 ++ ext2, ?_, ?_⟩, ?_, ?_, ?_, ?_⟩
      · rw [hext2]
        show (processBucket fails dn fl₀ top c).top ++ ext2 = _
        unfold processBucket
        rw [hext1]
        show (top ++ ext1) ++ ext2 = _
        rw [List.append_assoc]
      · rw [hmov2]
        show (processBucket fails dn fl₀ top c).counts.moved + ext2.length = _
        unfold processBucket
        rw [hmov1]
        show c.moved + ext1.length + ext2.length = _
        rw [List.length_append]
        omega
      · rw [hsum2]
        have hmapeq : rest.map (fun dn' =>
            ((updateBucket b dn
              (some (processBucket fails dn fl₀ top c).kept) dn').getD
                []).length) =
            rest.map (fun dn' => ((b dn').getD []).length) := by
          apply List.map_congr_left
          intro dn' hdn'
          rw [hb'rest dn' hdn']
        rw [hmapeq]
        have hsum1' : (processBucket fails dn fl₀ top c).counts.moved +
            (processBucket fails dn fl₀ top c).counts.failed +
            (processBucket fails dn fl₀ top c).counts.already_in_place =
            c.moved + c.failed + c.already_in_place + fl₀.length := by
          unfold processBucket
          rw [hsum1]
        rw [hsum1', List.map_cons, List.sum_cons, hb]
        show _ = c.moved + c.failed + c.already_in_place +
          (fl₀.length + (rest.map (fun dn' => ((b dn').getD []).length)).sum)
        omega
      · intro dn' hdn' fl hfl
        rcases List.mem_cons.mp hdn' with h | h
        · subst h
          rw [hb] at hfl
          have hfl0 : fl = fl₀ := (Option.some.injEq _ _ ▸ hfl).symm
          subst hfl0
          refine ⟨(processBucket fails dn' fl top c).kept, ?_, ?_, ?_, ?_⟩
          · rw [hkn1']
            exact hsub1
          · intro f hf hnk
            have hftop : f ∈ (processBucket fails dn' fl top c).top := by
              unfold processBucket
              apply hmem1 f hf
              exact hnk
            rw [hext2]
            exact List.mem_append_left _ hftop
          · intro f hf hname
            exact hkeep1 f hf hname
          · rw [hfourth2 dn' hnd.1]
            unfold updateBucket
            rw [if_pos rfl]
        · obtain ⟨kept, hksub, hkmem, hkname, hkval⟩ :=
            hthird2 dn' h fl (by rw [hb'rest dn' h]; exact hfl)
          refine ⟨kept, hksub, hkmem, ?_, hkval⟩
          intro f hf hname
          apply hkname f hf
          show hasName (processBucket fails dn fl₀ top c).top f.1 = true
          unfold processBucket
          rw [hext1]
          exact hasName_append top ext1 f.1 hname
      · intro dn' hdn'
        simp only [List.mem_cons, not_or] at hdn'
        rw [hfourth2 dn' hdn'.2]
        unfold updateBucket
        rw [if_neg hdn'.1]
      · intro dn' hdn' hnone
        rcases List.mem_cons.mp hdn' with h | h
        · rw [h] at hnone
          rw [hnone] at hb
          exact absurd hb (by simp)
        · apply hfifth2 dn' h
          rw [hb'rest dn' h]
          exact hnone

theorem cleanupDirs_not_mem (dirs : List String) :
    ∀ (b : String → Option (List (String × Nat))) (dn : String),
    dn ∉ dirs → cleanupDirs dirs b dn = b dn := by
  induction dirs with
  | nil => intro b dn _; rfl
  | cons d rest ih =>
    intro b dn h
    simp only [List.mem_cons, not_or] at h
    by_cases hb : b d = some []
    · show (if b d = some [] then cleanupDirs rest (updateBucket b d none)
        else cleanupDirs rest b) dn = b dn
      rw [if_pos hb, ih _ dn h.2]
      unfold updateBucket
      rw [if_neg h.1]
    · show (if b d = some [] then cleanupDirs rest (updateBucket b d none)
        else cleanupDirs rest b) dn = b dn
      rw [if_neg hb, ih _ dn h.2]

theorem cleanupDirs_mem (dirs : List String) :
    ∀ (b : String → Option (List (String × Nat))) (dn : String),
    dirs.Nodup → dn ∈ dirs →
    cleanupDirs dirs b dn = (if b dn = some [] then none else b dn) := by
  induction dirs with
  | nil => intro b dn _ h; simp at h
  | cons d rest ih =>
    intro b dn hnd hdn
    rw [List.nodup_cons] at hnd
    rcases List.mem_cons.mp hdn with h | h
    · subst h
      by_cases hb : b dn = some []
      · show (if b dn = some [] then cleanupDirs rest (updateBucket b dn none)
          else cleanupDirs rest b) dn = _
        rw [if_pos hb, cleanupDirs_not_mem rest _ dn hnd.1, if_pos hb]
        unfold updateBucket
        rw [if_pos rfl]
      · show (if b dn = some [] then cleanupDirs rest (updateBucket b dn none)
          else cleanupDirs rest b) dn = _
        rw [if_neg hb, cleanupDirs_not_mem rest _ dn hnd.1, if_neg hb]
    · have hne : dn ≠ d := fun hc => hnd.1 (hc ▸ h)
      by_cases hb : b d = some []
      · show (if b d = some [] then cleanupDirs rest (updateBucket b d none)
          else cleanupDirs rest b) dn = _
        rw [if_pos hb, ih _ dn hnd.2 h]
        have hup : updateBucket b d none dn = b dn := by
          unfold updateBucket
          rw [if_neg hne]
        rw [hup]
      · show (if b d = some [] then cleanupDirs rest (updateBucket b d none)
          else cleanupDirs rest b) dn = _
        rw [if_neg hb, ih _ dn hnd.2 h]

/-- C9: for every run of `restore_files` (over any top-level contents, any
configuration of bucket folders and any pattern of per-file move
failures):
the flat top level is only appended to — no existing top-level copy is
ever overwritten or deleted — and the `moved` count is exactly the number
of files appended;
every file of every bucket folder is classified exactly once, so
`moved + failed + alreadyInPlace` equals the total number of files found
in bucket folders (a failed move never stops the remaining files from
being processed);
for each existing bucket folder there is a retained subsequence `kept` of
its files such that every file not retained was moved to the top level,
every file whose name was already present at the top level is retained
(the bucket copy of an `alreadyInPlace` file is never deleted), and after
the final cleanup pass the folder is deleted exactly when it ended up
empty and otherwise holds exactly `kept`;
and an absent bucket folder stays absent.  The returned counters are
`{moved, failed, alreadyInPlace}`. -/
theorem restore_files_spec (fails : String → String → Bool)
    (top : List (String × Nat)) (b : String → Option (List (String × Nat))) :
    (∃ ext, (restore_files fails top b).2.1 = top ++ ext ∧
      (restore_files fails top b).1.moved = ext.length) ∧
    ((restore_files fails top b).1.moved + (restore_files fails top b).1.failed +
        (restore_files fails top b).1.already_in_place =
      (starDirs.map (fun dn => ((b dn).getD []).length)).sum) ∧
    (∀ dn ∈ starDirs, ∀ fl, b dn = some fl →
      ∃ kept, kept.Sublist fl ∧
        (∀ f ∈ fl, f ∉ kept → f ∈ (restore_files fails top b).2.1) ∧
        (∀ f ∈ fl, hasName top f.1 = true → f ∈ kept) ∧
        (restore_files fails top b).2.2 dn =
          (if kept.isEmpty then none else some kept)) ∧
    (∀ dn ∈ starDirs, b dn = none →
      (restore_files fails top b).2.2 dn = none) := by
  have hnd : starDirs.Nodup := by decide
  obtain ⟨⟨ext, hext, hmov⟩, hsum, hthird, hfourth, hfifth⟩ :=
    processDirs_spec fails starDirs b top ⟨0, 0, 0⟩ hnd
  refine ⟨⟨ext, hext, ?_⟩, ?_, ?_, ?_⟩
  · show (processDirs fails starDirs b top ⟨0, 0, 0⟩).2.2.moved = ext.length
    rw [hmov]
    simp
  · show (processDirs fails starDirs b top ⟨0, 0, 0⟩).2.2.moved +
      (processDirs fails starDirs b top ⟨0, 0, 0⟩).2.2.failed +
      (processDirs fails starDirs b top ⟨0, 0, 0⟩).2.2.already_in_place =
      (starDirs.map (fun dn => ((b dn).getD []).length)).sum
    rw [hsum]
    simp
  · intro dn hdn fl hfl
    obtain ⟨kept, hksub, hkmem, hkname, hkval⟩ := hthird dn hdn fl hfl
    refine ⟨kept, hksub, hkmem, hkname, ?_⟩
    show cleanupDirs starDirs (processDirs fails starDirs b top ⟨0, 0, 0⟩).1 dn
      = _
    rw [cleanupDirs_mem starDirs _ dn hnd hdn, hkval]
    by_cases hk : kept = []
    · subst hk
      simp
    · rw [if_neg (by simp [hk]), if_neg (by simp [hk])]
  · intro dn hdn hnone
    show cleanupDirs starDirs (processDirs fails starDirs b top ⟨0, 0, 0⟩).1 dn
      = none
    rw [cleanupDirs_mem starDirs _ dn hnd hdn, hfifth dn hdn hnone]
    rw [if_neg (by simp)]

/-- A concrete bucket configuration: folder `0星` holds two files, one of
which (`a.jpg`) collides with the top-level copy; folder `1星` exists but
is empty; the other star folders are absent. -/
def bC : String → Option (List (String × Nat)) :=
  fun dn =>
    if dn = "0星" then some [("a.jpg", 2), ("b.jpg", 3)]
    else if dn = "1星" then some [] else none

/-- C9 witness: on the concrete configuration (top level holding
`a.jpg`, bucket `0星` holding a colliding `a.jpg` and a fresh `b.jpg`,
empty bucket `1星`, no failures), the counters are
`{moved := 1, failed := 0, alreadyInPlace := 1}`, the empty `1星` folder
is deleted, and the retained-subsequence description of bucket `0星`
follows from the specification theorem at this input. -/
theorem restore_files_spec_witness :
    (restore_files (fun _ _ => false) [("a.jpg", 1)] bC).1 = ⟨1, 0, 1⟩ ∧
    (restore_files (fun _ _ => false) [("a.jpg", 1)] bC).2.2 "1星" = none ∧
    (∃ kept, kept.Sublist [("a.jpg", 2), ("b.jpg", 3)] ∧
      (∀ f ∈ [("a.jpg", 2), ("b.jpg", 3)], f ∉ kept →
        f ∈ (restore_files (fun _ _ => false) [("a.jpg", 1)] bC).2.1) ∧
      (∀ f ∈ [("a.jpg", 2), ("b.jpg", 3)],
        hasName [("a.jpg", 1)] f.1 = true → f ∈ kept) ∧
      (restore_files (fun _ _ => false) [("a.jpg", 1)] bC).2.2 "0星" =
        (if kept.isEmpty then none else some kept)) :=
  ⟨by decide, by decide,
    (restore_files_spec (fun _ _ => false) [("a.jpg", 1)] bC).2.2.1 "0星"
      (by decide) [("a.jpg", 2), ("b.jpg", 3)] (by decide)⟩

end SuperElite
